import Mathlib

/-!
Shallow embedding of github.com/fujiwara/sloghandler (text log renderer,
path formatter, and the two metrics-counting wrapper handlers) together
with theorems settling the specification claims.

Machine conventions:
* `slog.Level` is an `Int` (Go's type is an integer type).
* Attribute values are modelled by their textual rendering (the code only
  ever consumes a value via `%v` / `Value.String()`).
* Byte sequences are `String` (Go strings are byte slices; all data here
  is textual).
* The output sink is a function `String -> Option GoErr` returning the
  error that a `Write` of those bytes produces (`none` = success).
-/

/-- Go error values, abstracted to their message. -/
abbrev GoErr := String

/-- One `slog.Attr`: key and the textual rendering of the value. -/
abbrev Attr := String × String

/-- slog.LevelDebug. -/
def LevelDebug : Int := -4

/-- slog.LevelInfo. -/
def LevelInfo : Int := 0

/-- slog.LevelWarn. -/
def LevelWarn : Int := 4

/-- slog.LevelError. -/
def LevelError : Int := 8

/-- Go fmt %+d: the decimal rendering with an explicit sign. -/
def plusd (v : Int) : String :=
  if 0 ≤ v then "+" ++ toString v else toString v

/-- slog.Level.String(): the nearest-lower standard level name plus a
signed offset when nonzero. -/
def levelString (l : Int) : String :=
  if l < LevelInfo then
    (if l - LevelDebug = 0 then "DEBUG" else "DEBUG" ++ plusd (l - LevelDebug))
  else if l < LevelWarn then
    (if l - LevelInfo = 0 then "INFO" else "INFO" ++ plusd (l - LevelInfo))
  else if l < LevelError then
    (if l - LevelWarn = 0 then "WARN" else "WARN" ++ plusd (l - LevelWarn))
  else
    (if l - LevelError = 0 then "ERROR" else "ERROR" ++ plusd (l - LevelError))

/-- A log record as consumed by the handlers: the timestamp already
rendered with TimeFormat, the level, the message, and the ordered
attribute list. -/
structure Record where
  time : String
  level : Int
  message : String
  attrs : List Attr
deriving DecidableEq, Repr

/-- HandlerOptions of the root package: minimum level plus the Color
toggle (the embedded slog.HandlerOptions contributes the level). -/
structure HandlerOptions where
  level : Int
  color : Bool
deriving DecidableEq, Repr

/-- logHandler: options, preformatted attribute bytes, and identities of
the shared mutex and writer (`muId`, `wId` stand for the pointer
identities of `mu` and `w`). -/
structure LogHandler where
  opts : HandlerOptions
  preformatted : String
  muId : Nat
  wId : Nat
deriving DecidableEq, Repr

/-- Default of the package variable DebugColor (color.FgHiBlack = 90). -/
def DebugColor : Nat := 90

/-- Default of the package variable InfoColor (zero value: no color). -/
def InfoColor : Nat := 0

/-- Default of the package variable WarnColor (color.FgYellow = 33). -/
def WarnColor : Nat := 33

/-- Default of the package variable ErrorColor (color.FgRed = 31). -/
def ErrorColor : Nat := 31

/-- fatih/color FprintFunc of a single attribute: wraps the text in the
ANSI set sequence and the reset sequence. -/
def colorWrap (attr : Nat) (s : String) : String :=
  "\x1b[" ++ toString attr ++ "m" ++ s ++ "\x1b[0m"

/-- logHandler.Enabled. -/
def LogHandler.Enabled (h : LogHandler) (level : Int) : Bool :=
  h.opts.level ≤ level

/-- logHandler.FprintFunc: `some c` stands for the colored Fprint closure
with color attribute `c`, `none` for defaultFprintFunc (a plain write). -/
def LogHandler.FprintFunc (h : LogHandler) (level : Int) : Option Nat :=
  if h.opts.color then
    if level = LevelDebug then some DebugColor
    else if level = LevelInfo then
      (if InfoColor ≠ 0 then some InfoColor else none)
    else if level = LevelWarn then some WarnColor
    else if level = LevelError then some ErrorColor
    else none
  else none

/-- One attribute as rendered by Handle and WithAttrs:
` [key:value]`, or ` [value]` when the key is empty. -/
def renderAttr (a : Attr) : String :=
  if a.1 = "" then " [" ++ a.2 ++ "]" else " [" ++ a.1 ++ ":" ++ a.2 ++ "]"

/-- The record attributes rendered in order. -/
def renderAttrs : List Attr → String
  | [] => ""
  | a :: rest => renderAttr a ++ renderAttrs rest

/-- The buffer built by logHandler.Handle before any coloring:
timestamp, ` [LEVEL]`, the preformatted bytes, each record attribute,
then ` message\n`. -/
def buildLine (h : LogHandler) (r : Record) : String :=
  r.time ++ " [" ++ levelString r.level ++ "]"
    ++ h.preformatted ++ renderAttrs r.attrs ++ " " ++ r.message ++ "\n"

/-- The observable outcome of one Handle call: the bytes handed to the
writer and the error Handle returns. -/
structure HandleResult where
  written : String
  err : Option GoErr
deriving DecidableEq, Repr

/-- logHandler.Handle. When Color is set the buffer goes through the
level's Fprint closure, whose write error is discarded (err stays nil);
otherwise the buffer is written directly and the write's error is
returned. `sink` gives the error the underlying write of given bytes
produces. -/
def LogHandler.Handle (h : LogHandler) (sink : String → Option GoErr)
    (r : Record) : HandleResult :=
  let buf := buildLine h r
  if h.opts.color then
    let out := match h.FprintFunc r.level with
      | some c => colorWrap c buf
      | none => buf
    { written := out, err := none }
  else
    { written := buf, err := sink buf }

/-- logHandler.WithAttrs: builds the new preformatted bytes from the
given attributes alone (starting from an empty slice, not from
`h.preformatted`) and shares opts, mutex, and writer. -/
def LogHandler.WithAttrs (h : LogHandler) (attrs : List Attr) : LogHandler :=
  { opts := h.opts
    preformatted := renderAttrs attrs
    muId := h.muId
    wId := h.wId }

/-- logHandler.WithGroup: returns the receiver unchanged. -/
def LogHandler.WithGroup (h : LogHandler) (_group : String) : LogHandler := h

/-! ## Metrics-counting wrappers (prommetrics and otelmetrics)

The downstream ("base") handler is arbitrary: its behaviour is a
parameter `S : BaseSem`, its instances are named by `Nat` identities.
Counter state is threaded explicitly.  A wrapper type carries no
Handle/WithAttrs/WithGroup of its own beyond those the Go source
defines: the source defines only `Handle`, so `WithAttrs`/`WithGroup`
resolve, by Go struct-embedding method promotion, to the embedded
downstream handler's methods, whose result is the downstream handler's
result (not re-wrapped). -/

/-- Semantics of an arbitrary downstream slog.Handler: results of its
Handle, WithAttrs, and WithGroup (the latter two return another
downstream handler, named by its identity). -/
structure BaseSem where
  handle : Nat → Record → Option GoErr
  withAttrs : Nat → List Attr → Nat
  withGroup : Nat → String → Nat

/-- Options of both metrics packages: minimum counted level and ordered
label attribute names. -/
structure MOptions where
  minLevel : Int
  labelAttributes : List String
deriving DecidableEq, Repr

/-- DefaultOptions of both metrics packages. -/
def defaultMOptions : MOptions :=
  { minLevel := LevelInfo, labelAttributes := [] }

/-- predefinedLevels: the standard levels in ascending severity order. -/
def predefinedLevels : List Int := [LevelDebug, LevelInfo, LevelWarn, LevelError]

/-- Prometheus CounterVec state: label-value tuples mapped to counts. -/
abbrev PCounter := List (List String × Nat)

/-- counter.WithLabelValues(lv...).Add(n): creates the child at 0 when
absent, then adds `n`. -/
def pcounterAdd : PCounter → List String → Nat → PCounter
  | [], lv, n => [(lv, n)]
  | (k, v) :: rest, lv, n =>
    if k = lv then (k, v + n) :: rest else (k, v) :: pcounterAdd rest lv n

/-- OpenTelemetry Int64Counter state: attribute sets mapped to counts. -/
abbrev OCounter := List (List (String × String) × Nat)

/-- counter.Add(ctx, n, WithAttributes(kvs...)). -/
def ocounterAdd : OCounter → List (String × String) → Nat → OCounter
  | [], kvs, n => [(kvs, n)]
  | (k, v) :: rest, kvs, n =>
    if k = kvs then (k, v + n) :: rest else (k, v) :: ocounterAdd rest kvs n

/-- The value the inner `r.Attrs` loop of both Handle implementations
leaves in a label slot: every attribute whose key matches overwrites the
slot (initialised to ""), so the last match wins. -/
def lastMatch (attrs : List Attr) (key : String) : String :=
  attrs.foldl (fun acc a => if a.1 = key then a.2 else acc) ""

/-- The label-value tuple prommetrics.SlogHandler.Handle increments:
level string first, then one slot per configured label attribute. -/
def pbuildLabels (opts : MOptions) (r : Record) : List String :=
  if opts.labelAttributes.length = 0 then [levelString r.level]
  else levelString r.level :: opts.labelAttributes.map (lastMatch r.attrs)

/-- The attribute set otelmetrics.SlogHandler.Handle increments. -/
def obuildAttrs (opts : MOptions) (r : Record) : List (String × String) :=
  if opts.labelAttributes.length = 0 then [("level", levelString r.level)]
  else ("level", levelString r.level)
    :: opts.labelAttributes.map (fun n => (n, lastMatch r.attrs n))

/-- Counter zero-initialisation loop of prommetrics.NewHandlerWithOptions. -/
def pinitCounter (counter : PCounter) (opts : MOptions) : PCounter :=
  predefinedLevels.foldl
    (fun c l =>
      if opts.minLevel ≤ l then
        if opts.labelAttributes.length = 0 then
          pcounterAdd c [levelString l] 0
        else
          pcounterAdd c (levelString l :: opts.labelAttributes.map (fun _ => "")) 0
      else c)
    counter

/-- Counter zero-initialisation loop of otelmetrics.NewHandlerWithOptions. -/
def oinitCounter (counter : OCounter) (opts : MOptions) : OCounter :=
  predefinedLevels.foldl
    (fun c l =>
      if opts.minLevel ≤ l then
        if opts.labelAttributes.length = 0 then
          ocounterAdd c [("level", levelString l)] 0
        else
          ocounterAdd c
            (("level", levelString l) :: opts.labelAttributes.map (fun n => (n, "")))
            0
      else c)
    counter

/-- A handler value of the prommetrics world: either a downstream
handler (by identity) or a SlogHandler wrapping an inner handler with
its options (the shared counter lives in the threaded PCounter state). -/
inductive PHandler where
  | base (id : Nat)
  | wrap (inner : PHandler) (options : MOptions)
deriving DecidableEq, Repr

/-- WithAttrs called on a prommetrics handler.  The wrapper type defines
no WithAttrs, so Go promotes the embedded handler's method: the call on
a wrapper is the call on its inner handler, and the wrapper is not
re-created around the result. -/
def pwithAttrs (S : BaseSem) : PHandler → List Attr → PHandler
  | .base id, attrs => .base (S.withAttrs id attrs)
  | .wrap inner _, attrs => pwithAttrs S inner attrs

/-- WithGroup called on a prommetrics handler (promoted likewise). -/
def pwithGroup (S : BaseSem) : PHandler → String → PHandler
  | .base id, g => .base (S.withGroup id g)
  | .wrap inner _, g => pwithGroup S inner g

/-- Handle of the prommetrics world: a base handler leaves the counter
alone; SlogHandler.Handle counts qualifying records then delegates,
returning the delegate's result. -/
def phandle (S : BaseSem) : PHandler → PCounter → Record → PCounter × Option GoErr
  | .base id, c, r => (c, S.handle id r)
  | .wrap inner opts, c, r =>
    if r.level < opts.minLevel then phandle S inner c r
    else phandle S inner (pcounterAdd c (pbuildLabels opts r) 1) r

/-- A handler value of the otelmetrics world. -/
inductive OHandler where
  | base (id : Nat)
  | wrap (inner : OHandler) (options : MOptions)
deriving DecidableEq, Repr

/-- WithAttrs on an otelmetrics handler (method promotion, as above). -/
def owithAttrs (S : BaseSem) : OHandler → List Attr → OHandler
  | .base id, attrs => .base (S.withAttrs id attrs)
  | .wrap inner _, attrs => owithAttrs S inner attrs

/-- WithGroup on an otelmetrics handler (method promotion, as above). -/
def owithGroup (S : BaseSem) : OHandler → String → OHandler
  | .base id, g => .base (S.withGroup id g)
  | .wrap inner _, g => owithGroup S inner g

/-- Handle of the otelmetrics world. -/
def ohandle (S : BaseSem) : OHandler → OCounter → Record → OCounter × Option GoErr
  | .base id, c, r => (c, S.handle id r)
  | .wrap inner opts, c, r =>
    if r.level < opts.minLevel then ohandle S inner c r
    else ohandle S inner (ocounterAdd c (obuildAttrs opts r) 1) r

/-- A concrete downstream semantics used in closed witness statements. -/
def S0 : BaseSem :=
  { handle := fun id r => if id = 0 ∧ r.message = "fail" then some "boom" else none
    withAttrs := fun id attrs => id + attrs.length + 1
    withGroup := fun id _ => id + 100 }

/-! ## Path formatter (source.go)

`getFilePath` uses Go's `path/filepath` with the unix separator; the
lexical functions Base, Dir, Clean, and Join are modelled here on
`List Char` (faithful to their documented lexical algorithms), with
`String` wrappers matching the source's signatures. -/

/-- strings split at a separator character, keeping empty segments
(the behaviour Clean's element scan observes). -/
def splitSep (sep : Char) : List Char → List (List Char)
  | [] => [[]]
  | c :: cs =>
    let r := splitSep sep cs
    if c = sep then [] :: r
    else
      match r with
      | g :: gs => (c :: g) :: gs
      | [] => [[c]]

/-- path elements re-joined with a separator. -/
def joinSep (sep : Char) : List (List Char) → List Char
  | [] => []
  | [g] => g
  | g :: gs => g ++ sep :: joinSep sep gs

/-- The element scan of filepath.Clean: skip empty and "." elements,
let ".." pop the last real element (or accumulate when nothing can be
popped and the path is not rooted). `out` is the stack, head = last. -/
def cleanStack (rooted : Bool) : List (List Char) → List (List Char) → List (List Char)
  | [], out => out.reverse
  | e :: es, out =>
    if e = [] ∨ e = ['.'] then cleanStack rooted es out
    else if e = ['.', '.'] then
      match out with
      | o :: os =>
        if o = ['.', '.'] then cleanStack rooted es (['.', '.'] :: o :: os)
        else cleanStack rooted es os
      | [] =>
        if rooted then cleanStack rooted es []
        else cleanStack rooted es [['.', '.']]
    else cleanStack rooted es (e :: out)

/-- filepath.Clean on characters (unix). -/
def cleanChars (l : List Char) : List Char :=
  if l = [] then ['.']
  else
    let rooted := l.head? = some '/'
    let out := cleanStack rooted (splitSep '/' l) []
    if rooted then '/' :: joinSep '/' out
    else if out = [] then ['.'] else joinSep '/' out

/-- filepath.Base on characters (unix): strip trailing separators, take
the part after the last separator. -/
def baseChars (l : List Char) : List Char :=
  if l = [] then ['.']
  else
    let r := l.reverse.dropWhile (· = '/')
    if r = [] then ['/']
    else (r.takeWhile (· ≠ '/')).reverse

/-- filepath.Dir on characters (unix): everything up to and including
the last separator, Cleaned. -/
def dirChars (l : List Char) : List Char :=
  cleanChars ((l.reverse.dropWhile (· ≠ '/')).reverse)

/-- filepath.Base. -/
def fpBase (s : String) : String := ⟨baseChars s.data⟩

/-- filepath.Dir. -/
def fpDir (s : String) : String := ⟨dirChars s.data⟩

/-- filepath.Join: drop leading empty elements, join the rest with the
separator, Clean the result ("" when every element is empty). -/
def fpJoin (elems : List String) : String :=
  match (elems.map String.data).dropWhile (· = []) with
  | [] => ""
  | rest => ⟨cleanChars (joinSep '/' rest)⟩

/-- The upward walk of getFilePath: while the loop counter is below the
clamped depth and currentPath is not ".", the separator, "", or a fixed
point of Dir, prepend Base(currentPath) and step to Dir(currentPath). -/
def gfpLoop : Nat → List Char → List (List Char) → List (List Char)
  | 0, _, parts => parts
  | n + 1, cur, parts =>
    if cur ≠ ['.'] ∧ cur ≠ ['/'] ∧ cur ≠ [] ∧ dirChars cur ≠ cur then
      gfpLoop n (dirChars cur) (baseChars cur :: parts)
    else parts

/-- The value logHandler.getFilePath computes on a cache miss: negative
depth clamps to 0; depth 0 yields Base(path); positive depth joins the
parts gathered by the upward walk. -/
def getFilePathPure (path : String) (sourceDepth : Int) : String :=
  let depth := if sourceDepth < 0 then 0 else sourceDepth
  if depth = 0 then fpBase path
  else
    fpJoin
      ((gfpLoop depth.toNat (dirChars path.data) [baseChars path.data]).map
        (fun g => (⟨g⟩ : String)))

/-- sourceCacheKey. -/
structure SourceCacheKey where
  path : String
  depth : Int
deriving DecidableEq, Repr

/-- The handler's sourceCache (sync.Map), as an association list. -/
abbrev SourceCache := List (SourceCacheKey × String)

/-- sync.Map.Load. -/
def cacheLoad (c : SourceCache) (k : SourceCacheKey) : Option String :=
  (c.find? (fun e => e.1 = k)).map (fun e => e.2)

/-- logHandler.getFilePath: return the cached value when present,
otherwise compute, store, and return. -/
def getFilePath (c : SourceCache) (path : String) (sourceDepth : Int) :
    String × SourceCache :=
  let k : SourceCacheKey := { path := path, depth := sourceDepth }
  match cacheLoad c k with
  | some v => (v, c)
  | none => (getFilePathPure path sourceDepth, (k, getFilePathPure path sourceDepth) :: c)

/-- A canonical path segment: nonempty, not "." or "..", and free of the
separator — the segments an absolute unix path is made of. -/
def Seg (g : List Char) : Prop :=
  g ≠ [] ∧ g ≠ ['.'] ∧ g ≠ ['.', '.'] ∧ '/' ∉ g

instance (g : List Char) : Decidable (Seg g) := by
  unfold Seg; infer_instance

/-- A canonical path segment, as a string. -/
def SegStr (s : String) : Prop := Seg s.data

instance (s : String) : Decidable (SegStr s) := by
  unfold SegStr; infer_instance

/-- The characters of the absolute path with the given segments. -/
def absChars (gss : List (List Char)) : List Char := '/' :: joinSep '/' gss

/-- The absolute path with the given segments. -/
def absPath (segs : List String) : String := ⟨absChars (segs.map String.data)⟩

/-- The given segments joined with the separator, as a string. -/
def joinSlashStr (segs : List String) : String :=
  ⟨joinSep '/' (segs.map String.data)⟩

/-- Stated from the specification's words, for comparison with the
code's `lastMatch`: the string value of the FIRST record attribute with
the given key, or empty string when absent. -/
def firstMatch (attrs : List Attr) (key : String) : String :=
  match attrs.find? (fun a => a.1 = key) with
  | some a => a.2
  | none => ""

/-- Whether a character sequence contains the ANSI escape-sequence
lead-in `ESC [`. -/
def containsEscSeq : List Char → Bool
  | a :: b :: rest => (a = '\x1b' && b = '[') || containsEscSeq (b :: rest)
  | _ => false

/-- A string free of the escape character (so any `ESC [` in output
containing it was introduced by the renderer, not the data). -/
def noEsc (s : String) : Prop := ∀ c ∈ s.data, c ≠ '\x1b'

instance (s : String) : Decidable (noEsc s) := by
  unfold noEsc; infer_instance

/-! ## Helper lemmas -/

/-- The error a prom-world handle returns does not depend on the counter
state being threaded. -/
theorem phandle_snd_const (S : BaseSem) (h : PHandler) (r : Record) :
    ∀ c c', (phandle S h c r).2 = (phandle S h c' r).2 := by
  induction h with
  | base id => intro c c'; rfl
  | wrap inner opts ih =>
    intro c c'
    by_cases hlt : r.level < opts.minLevel
    · simp only [phandle, if_pos hlt]; exact ih c c'
    · simp only [phandle, if_neg hlt]; exact ih _ _

/-- The error an otel-world handle returns does not depend on the
counter state being threaded. -/
theorem ohandle_snd_const (S : BaseSem) (h : OHandler) (r : Record) :
    ∀ c c', (ohandle S h c r).2 = (ohandle S h c' r).2 := by
  induction h with
  | base id => intro c c'; rfl
  | wrap inner opts ih =>
    intro c c'
    by_cases hlt : r.level < opts.minLevel
    · simp only [ohandle, if_pos hlt]; exact ih c c'
    · simp only [ohandle, if_neg hlt]; exact ih _ _

/-! ## Claim theorems -/

/-- Claim C1, counterexample. On both backends, calling withAttributes on
a metrics wrapper yields the plain downstream handler (no re-wrapping),
and handle on the returned handler leaves the counter untouched for a
record that qualifies for counting — while the original wrapper would
have incremented it. -/
theorem metrics_withAttrs_loses_counting_cex :
    (pwithAttrs S0 (.wrap (.base 0) defaultMOptions) [] = .base 1
      ∧ (phandle S0 (pwithAttrs S0 (.wrap (.base 0) defaultMOptions) []) []
          { time := "t", level := 0, message := "m", attrs := [] }).1 = []
      ∧ (phandle S0 (.wrap (.base 0) defaultMOptions) []
          { time := "t", level := 0, message := "m", attrs := [] }).1 = [(["INFO"], 1)]
      ∧ ([] : PCounter) ≠ [(["INFO"], 1)])
    ∧ (owithAttrs S0 (.wrap (.base 0) defaultMOptions) [] = .base 1
      ∧ (ohandle S0 (owithAttrs S0 (.wrap (.base 0) defaultMOptions) []) []
          { time := "t", level := 0, message := "m", attrs := [] }).1 = []
      ∧ (ohandle S0 (.wrap (.base 0) defaultMOptions) []
          { time := "t", level := 0, message := "m", attrs := [] }).1
          = [([("level", "INFO")], 1)]
      ∧ ([] : OCounter) ≠ [([("level", "INFO")], 1)]) := by
  constructor <;> refine ⟨rfl, rfl, by decide, by decide⟩

/-- Claim C1, amended. On both backends withAttributes and withGroup
resolve, by struct-embedding method promotion, to the downstream
handler's operation: the call on a wrapper equals the call on its inner
handler, a call reaching the downstream handler returns the plain
downstream result un-wrapped, and handle on the handler so returned
never increments the counter. -/
theorem metrics_withAttrs_withGroup_promote (S : BaseSem) (inner : PHandler)
    (oinner : OHandler) (opts : MOptions) (attrs : List Attr) (g : String)
    (id : Nat) (pc : PCounter) (oc : OCounter) (r : Record) :
    (pwithAttrs S (.wrap inner opts) attrs = pwithAttrs S inner attrs
      ∧ pwithGroup S (.wrap inner opts) g = pwithGroup S inner g
      ∧ pwithAttrs S (.base id) attrs = .base (S.withAttrs id attrs)
      ∧ pwithGroup S (.base id) g = .base (S.withGroup id g)
      ∧ (phandle S (pwithAttrs S (.wrap (.base id) opts) attrs) pc r).1 = pc
      ∧ (phandle S (pwithGroup S (.wrap (.base id) opts) g) pc r).1 = pc)
    ∧ (owithAttrs S (.wrap oinner opts) attrs = owithAttrs S oinner attrs
      ∧ owithGroup S (.wrap oinner opts) g = owithGroup S oinner g
      ∧ owithAttrs S (.base id) attrs = .base (S.withAttrs id attrs)
      ∧ owithGroup S (.base id) g = .base (S.withGroup id g)
      ∧ (ohandle S (owithAttrs S (.wrap (.base id) opts) attrs) oc r).1 = oc
      ∧ (ohandle S (owithGroup S (.wrap (.base id) opts) g) oc r).1 = oc) :=
  ⟨⟨rfl, rfl, rfl, rfl, rfl, rfl⟩, ⟨rfl, rfl, rfl, rfl, rfl, rfl⟩⟩

/-- Claim C2, code evaluated at the failing input. WithAttrs on a text
renderer whose preformatted prefix is " [a:1]" with new attributes
[b:2] produces the prefix " [b:2]" — the old prefix is discarded, not
concatenated — while configuration, mutex, and writer are shared. -/
theorem withAttrs_drops_old_preformatted :
    LogHandler.WithAttrs
        { opts := { level := 0, color := false }, preformatted := " [a:1]",
          muId := 5, wId := 7 }
        [("b", "2")]
      = { opts := { level := 0, color := false }, preformatted := " [b:2]",
          muId := 5, wId := 7 }
    ∧ (" [b:2]" : String) ≠ " [a:1] [b:2]" := by
  exact ⟨by decide, by decide⟩

/-- Claim C3, counterexample. A renderer with color enabled returns nil
from Handle even when the underlying sink write fails. -/
theorem handle_color_swallows_write_error_cex :
    (LogHandler.Handle
        { opts := { level := 0, color := true }, preformatted := "", muId := 0, wId := 0 }
        (fun _ => some "boom")
        { time := "t", level := 8, message := "m", attrs := [] }).err = none
    ∧ (fun (_ : String) => some "boom")
        ((LogHandler.Handle
          { opts := { level := 0, color := true }, preformatted := "", muId := 0, wId := 0 }
          (fun _ => some "boom")
          { time := "t", level := 8, message := "m", attrs := [] }).written)
        = some "boom"
    ∧ (none : Option GoErr) ≠ some "boom" := by
  exact ⟨rfl, rfl, by decide⟩

/-- Claim C3, amended. With color disabled, Handle returns exactly the
sink's write error for the built line; with color enabled the write goes
through the Fprint closure and any write error is discarded, so Handle
returns nil. -/
theorem handle_error_passthrough_amended (h : LogHandler)
    (sink : String → Option GoErr) (r : Record) :
    (h.opts.color = false → (h.Handle sink r).err = sink (buildLine h r))
    ∧ (h.opts.color = true → (h.Handle sink r).err = none) := by
  constructor
  · intro hc; simp [LogHandler.Handle, hc]
  · intro hc; simp [LogHandler.Handle, hc]

/-- Claim C3 amended, witness at concrete inputs. -/
theorem handle_error_passthrough_amended_witness :
    ((LogHandler.Handle
        { opts := { level := 0, color := false }, preformatted := "", muId := 0, wId := 0 }
        (fun _ => some "werr")
        { time := "t", level := 0, message := "m", attrs := [] }).err
      = (fun (_ : String) => some "werr")
          (buildLine
            { opts := { level := 0, color := false }, preformatted := "", muId := 0, wId := 0 }
            { time := "t", level := 0, message := "m", attrs := [] }))
    ∧ ((LogHandler.Handle
        { opts := { level := 0, color := true }, preformatted := "", muId := 0, wId := 0 }
        (fun _ => some "werr")
        { time := "t", level := 0, message := "m", attrs := [] }).err = none) :=
  ⟨(handle_error_passthrough_amended _ _ _).1 rfl,
   (handle_error_passthrough_amended _ _ _).2 rfl⟩

/-- Claim C6. On both backends the wrapper's Handle returns exactly the
result of the inner handler applied to the same unchanged record (over
every downstream semantics S, so the forwarded record is the given one),
and for a record below the configured minimum the wrapper changes the
counter exactly as the inner handler alone does (no increment of its
own); the counting never alters the delegation result. -/
theorem handle_forwards_and_preserves_result (S : BaseSem) (inner : PHandler)
    (oinner : OHandler) (opts : MOptions) (pc : PCounter) (oc : OCounter)
    (r : Record) :
    ((phandle S (.wrap inner opts) pc r).2 = (phandle S inner pc r).2
      ∧ (r.level < opts.minLevel →
          phandle S (.wrap inner opts) pc r = phandle S inner pc r))
    ∧ ((ohandle S (.wrap oinner opts) oc r).2 = (ohandle S oinner oc r).2
      ∧ (r.level < opts.minLevel →
          ohandle S (.wrap oinner opts) oc r = ohandle S oinner oc r)) := by
  refine ⟨⟨?_, ?_⟩, ⟨?_, ?_⟩⟩
  · by_cases hlt : r.level < opts.minLevel
    · simp only [phandle, if_pos hlt]
    · simp only [phandle, if_neg hlt]
      exact phandle_snd_const S inner r _ _
  · intro hlt; simp only [phandle, if_pos hlt]
  · by_cases hlt : r.level < opts.minLevel
    · simp only [ohandle, if_pos hlt]
    · simp only [ohandle, if_neg hlt]
      exact ohandle_snd_const S oinner r _ _
  · intro hlt; simp only [ohandle, if_pos hlt]

/-- Claim C6, witness at concrete inputs (a DEBUG record below the
default INFO minimum). -/
theorem handle_forwards_and_preserves_result_witness :
    ((phandle S0 (.wrap (.base 0) defaultMOptions) [(["INFO"], 3)]
        { time := "t", level := -4, message := "m", attrs := [] }).2
      = (phandle S0 (.base 0) [(["INFO"], 3)]
        { time := "t", level := -4, message := "m", attrs := [] }).2)
    ∧ (phandle S0 (.wrap (.base 0) defaultMOptions) [(["INFO"], 3)]
        { time := "t", level := -4, message := "m", attrs := [] }
      = phandle S0 (.base 0) [(["INFO"], 3)]
        { time := "t", level := -4, message := "m", attrs := [] })
    ∧ (ohandle S0 (.wrap (.base 0) defaultMOptions) []
        { time := "t", level := -4, message := "m", attrs := [] }
      = ohandle S0 (.base 0) []
        { time := "t", level := -4, message := "m", attrs := [] }) :=
  ⟨(handle_forwards_and_preserves_result S0 (.base 0) (.base 0) defaultMOptions
      [(["INFO"], 3)] [] _).1.1,
   (handle_forwards_and_preserves_result S0 (.base 0) (.base 0) defaultMOptions
      [(["INFO"], 3)] [] _).1.2 (by decide),
   (handle_forwards_and_preserves_result S0 (.base 0) (.base 0) defaultMOptions
      [(["INFO"], 3)] [] _).2.2 (by decide)⟩

/-- Claim C9. Rendering is deterministic: two Handle calls on renderers
with the same configuration and the same preformatted prefix (writer,
mutex, and sink may differ) and the same record hand identical bytes to
the sink. -/
theorem handle_deterministic (h h' : LogHandler)
    (sink sink' : String → Option GoErr) (r : Record)
    (hopts : h.opts = h'.opts) (hpre : h.preformatted = h'.preformatted) :
    (h.Handle sink r).written = (h'.Handle sink' r).written := by
  cases h with
  | mk o p m w =>
    cases h' with
    | mk o' p' m' w' =>
      cases hopts
      cases hpre
      by_cases hc : o.color = true <;>
        simp [LogHandler.Handle, LogHandler.FprintFunc, buildLine, hc]

/-- Claim C9, witness: two renderers differing only in mutex and writer
identity, with different sinks, write identical bytes. -/
theorem handle_deterministic_witness :
    (LogHandler.Handle
        { opts := { level := 0, color := true }, preformatted := " [a:1]",
          muId := 1, wId := 2 }
        (fun _ => none)
        { time := "t", level := 4, message := "m", attrs := [("k", "v")] }).written
    = (LogHandler.Handle
        { opts := { level := 0, color := true }, preformatted := " [a:1]",
          muId := 9, wId := 8 }
        (fun _ => some "e")
        { time := "t", level := 4, message := "m", attrs := [("k", "v")] }).written :=
  handle_deterministic _ _ _ _ _ rfl rfl

/-- Claim C4, counterexample. With label attribute "service" and a
record carrying service=a then service=b, both backends increment at
the value of the LAST matching attribute ("b"), not the first ("a") as
the claim states. -/
theorem labels_last_match_cex :
    ((phandle S0
        (.wrap (.base 0) { minLevel := 0, labelAttributes := ["service"] }) []
        { time := "t", level := 0, message := "m",
          attrs := [("service", "a"), ("service", "b")] }).1
      = [(["INFO", "b"], 1)]
    ∧ firstMatch [("service", "a"), ("service", "b")] "service" = "a"
    ∧ ([(["INFO", "b"], 1)] : PCounter) ≠ [(["INFO", "a"], 1)])
    ∧ ((ohandle S0
        (.wrap (.base 0) { minLevel := 0, labelAttributes := ["service"] }) []
        { time := "t", level := 0, message := "m",
          attrs := [("service", "a"), ("service", "b")] }).1
      = [([("level", "INFO"), ("service", "b")], 1)]
    ∧ ([([("level", "INFO"), ("service", "b")], 1)] : OCounter)
        ≠ [([("level", "INFO"), ("service", "a")], 1)]) := by
  exact ⟨⟨by decide, by decide, by decide⟩, ⟨by decide, by decide⟩⟩

/-- Claim C4, amended. For a record at or above the minimum and a
non-empty configured label-attribute list, both backends increment the
counter at a tuple whose first element is the level name and whose
remaining elements are, per configured name in order, the string value
of the LAST record attribute with that key (empty string if absent);
the tuple length is 1 + the number of configured names. -/
theorem labels_level_and_last_match (S : BaseSem) (id oid : Nat)
    (opts : MOptions) (pc : PCounter) (oc : OCounter) (r : Record)
    (hne : opts.labelAttributes ≠ [])
    (hmin : opts.minLevel ≤ r.level) :
    (phandle S (.wrap (.base id) opts) pc r
        = (pcounterAdd pc
            (levelString r.level :: opts.labelAttributes.map (lastMatch r.attrs)) 1,
          S.handle id r)
      ∧ (levelString r.level :: opts.labelAttributes.map (lastMatch r.attrs)).length
          = 1 + opts.labelAttributes.length)
    ∧ (ohandle S (.wrap (.base oid) opts) oc r
        = (ocounterAdd oc
            (("level", levelString r.level)
              :: opts.labelAttributes.map (fun n => (n, lastMatch r.attrs n))) 1,
          S.handle oid r)
      ∧ (("level", levelString r.level)
          :: opts.labelAttributes.map (fun n => (n, lastMatch r.attrs n))).length
          = 1 + opts.labelAttributes.length) := by
  have hnl : ¬ r.level < opts.minLevel := Int.not_lt.mpr hmin
  have hlen : ¬ opts.labelAttributes.length = 0 := by
    simpa [List.length_eq_zero] using hne
  refine ⟨⟨?_, ?_⟩, ⟨?_, ?_⟩⟩
  · simp [phandle, hnl, pbuildLabels, hlen]
  · simp [Nat.add_comm]
  · simp [ohandle, hnl, obuildAttrs, hlen]
  · simp [Nat.add_comm]

/-- Claim C4 amended, witness at concrete inputs. -/
theorem labels_level_and_last_match_witness :
    (phandle S0
        (.wrap (.base 0) { minLevel := 0, labelAttributes := ["service"] }) []
        { time := "t", level := 4, message := "m", attrs := [("service", "auth")] }
      = (pcounterAdd []
          (levelString 4
            :: (["service"] : List String).map
                (lastMatch [(("service", "auth") : Attr)])) 1,
        S0.handle 0
          { time := "t", level := 4, message := "m", attrs := [("service", "auth")] })
    ∧ (levelString 4
        :: (["service"] : List String).map
            (lastMatch [(("service", "auth") : Attr)])).length
        = 1 + (["service"] : List String).length) :=
  (labels_level_and_last_match S0 0 0
    { minLevel := 0, labelAttributes := ["service"] } [] []
    { time := "t", level := 4, message := "m", attrs := [("service", "auth")] }
    (by decide) (by decide)).1

/-- levelString at the standard debug level. -/
theorem lsDebug : levelString LevelDebug = "DEBUG" := by decide

/-- levelString at the standard info level. -/
theorem lsInfo : levelString LevelInfo = "INFO" := by decide

/-- levelString at the standard warn level. -/
theorem lsWarn : levelString LevelWarn = "WARN" := by decide

/-- levelString at the standard error level. -/
theorem lsError : levelString LevelError = "ERROR" := by decide

/-- The four standard level names are pairwise distinct. -/
theorem levelNames_distinct :
    ("DEBUG" : String) ≠ "INFO" ∧ ("DEBUG" : String) ≠ "WARN"
    ∧ ("DEBUG" : String) ≠ "ERROR" ∧ ("INFO" : String) ≠ "WARN"
    ∧ ("INFO" : String) ≠ "ERROR" ∧ ("WARN" : String) ≠ "ERROR" := by
  decide

/-- prommetrics zero-initialisation over a fresh counter creates exactly
one zero entry per predefined level at or above the minimum, each with
empty strings in every label-attribute slot. -/
theorem pinit_eq (opts : MOptions) :
    pinitCounter [] opts
      = (predefinedLevels.filter (fun l => opts.minLevel ≤ l)).map
          (fun l =>
            (if opts.labelAttributes.length = 0 then [levelString l]
             else levelString l :: opts.labelAttributes.map (fun _ => ""), 0)) := by
  obtain ⟨hDI, hDW, hDE, hIW, hIE, hWE⟩ := levelNames_distinct
  by_cases h0 : opts.labelAttributes.length = 0 <;>
  by_cases h1 : opts.minLevel ≤ LevelDebug <;>
  by_cases h2 : opts.minLevel ≤ LevelInfo <;>
  by_cases h3 : opts.minLevel ≤ LevelWarn <;>
  by_cases h4 : opts.minLevel ≤ LevelError <;>
    first
      | (exfalso
         simp only [LevelDebug, LevelInfo, LevelWarn, LevelError] at h1 h2 h3 h4
         omega)
      | simp [pinitCounter, predefinedLevels, List.foldl, h0, h1, h2, h3, h4,
          pcounterAdd, lsDebug, lsInfo, lsWarn, lsError, hDI, hDW, hDE, hIW,
          hIE, hWE]

/-- otelmetrics zero-initialisation over a fresh counter creates exactly
one zero entry per predefined level at or above the minimum, each with
empty strings in every label-attribute slot. -/
theorem oinit_eq (opts : MOptions) :
    oinitCounter [] opts
      = (predefinedLevels.filter (fun l => opts.minLevel ≤ l)).map
          (fun l =>
            (if opts.labelAttributes.length = 0 then [("level", levelString l)]
             else ("level", levelString l)
               :: opts.labelAttributes.map (fun n => (n, "")), 0)) := by
  obtain ⟨hDI, hDW, hDE, hIW, hIE, hWE⟩ := levelNames_distinct
  by_cases h0 : opts.labelAttributes.length = 0 <;>
  by_cases h1 : opts.minLevel ≤ LevelDebug <;>
  by_cases h2 : opts.minLevel ≤ LevelInfo <;>
  by_cases h3 : opts.minLevel ≤ LevelWarn <;>
  by_cases h4 : opts.minLevel ≤ LevelError <;>
    first
      | (exfalso
         simp only [LevelDebug, LevelInfo, LevelWarn, LevelError] at h1 h2 h3 h4
         omega)
      | simp [oinitCounter, predefinedLevels, List.foldl, h0, h1, h2, h3, h4,
          ocounterAdd, lsDebug, lsInfo, lsWarn, lsError, hDI, hDW, hDE, hIW,
          hIE, hWE, Prod.ext_iff]

/-- Claim C5. At construction, both backends pre-register the counter at
zero exactly for the standard levels at or above the configured minimum;
with label attributes configured each zero entry carries empty strings
in every label-attribute position, and no other entries are created. -/
theorem init_preregisters_levels (opts : MOptions) :
    pinitCounter [] opts
      = (predefinedLevels.filter (fun l => opts.minLevel ≤ l)).map
          (fun l =>
            (if opts.labelAttributes.length = 0 then [levelString l]
             else levelString l :: opts.labelAttributes.map (fun _ => ""), 0))
    ∧ oinitCounter [] opts
      = (predefinedLevels.filter (fun l => opts.minLevel ≤ l)).map
          (fun l =>
            (if opts.labelAttributes.length = 0 then [("level", levelString l)]
             else ("level", levelString l)
               :: opts.labelAttributes.map (fun n => (n, "")), 0)) :=
  ⟨pinit_eq opts, oinit_eq opts⟩

/-- A signed-decimal rendering is never the empty string: it starts with
an explicit sign. -/
theorem plusd_data_cons (v : Int) : ∃ c cs, (plusd v).data = c :: cs := by
  cases v with
  | ofNat m =>
    refine ⟨'+', (toString (Int.ofNat m)).data, ?_⟩
    have h : 0 ≤ Int.ofNat m := Int.ofNat_nonneg m
    simp only [plusd, if_pos h, String.data_append]
    rfl
  | negSucc m =>
    have h : ¬ 0 ≤ Int.negSucc m := by
      intro hc
      exact absurd hc (Int.not_le.mpr (Int.negSucc_lt_zero m))
    refine ⟨'-', (Nat.repr (m + 1)).data, ?_⟩
    simp only [plusd, if_neg h]
    show (Int.repr (Int.negSucc m)).data = '-' :: (Nat.repr (m + 1)).data
    rw [show Int.repr (Int.negSucc m) = "-" ++ Nat.repr (m + 1) from rfl,
      String.data_append]
    rfl

/-- Appending a signed-decimal rendering strictly lengthens a string. -/
theorem base_plusd_ne (base : String) (v : Int) : base ++ plusd v ≠ base := by
  obtain ⟨c, cs, h⟩ := plusd_data_cons v
  intro he
  have hd := congrArg String.data he
  rw [String.data_append, h] at hd
  have hlen := congrArg List.length hd
  simp [Nat.succ_ne_zero] at hlen

/-- The first character survives appending. -/
theorem head_data_append (X s : String) (c : Char)
    (h : X.data.head? = some c) : (X ++ s).data.head? = some c := by
  rw [String.data_append]
  cases hx : X.data with
  | nil => rw [hx] at h; simp at h
  | cons a t =>
    rw [hx] at h
    simp only [List.head?_cons, Option.some.injEq] at h
    simp [h]

/-- Strings with different first characters differ. -/
theorem ne_of_head_ne (a b : String) (h : a.data.head? ≠ b.data.head?) :
    a ≠ b := fun he => h (by rw [he])

/-- A level string of a non-standard level is none of the four standard
level names: it always carries a signed offset suffix. -/
theorem levelString_nonstandard (l : Int) (hl : l ∉ predefinedLevels) :
    levelString l ≠ "DEBUG" ∧ levelString l ≠ "INFO"
    ∧ levelString l ≠ "WARN" ∧ levelString l ≠ "ERROR" := by
  have hne : l ≠ -4 ∧ l ≠ 0 ∧ l ≠ 4 ∧ l ≠ 8 := by
    constructor
    · intro h; exact hl (by simp [predefinedLevels, LevelDebug, h])
    constructor
    · intro h; exact hl (by simp [predefinedLevels, LevelInfo, h])
    constructor
    · intro h; exact hl (by simp [predefinedLevels, LevelWarn, h])
    · intro h; exact hl (by simp [predefinedLevels, LevelError, h])
  obtain ⟨h4, h0, hw, he⟩ := hne
  by_cases c1 : l < LevelInfo
  · have hz : ¬ l - LevelDebug = 0 := by
      simp only [LevelDebug]; omega
    have hls : levelString l = "DEBUG" ++ plusd (l - LevelDebug) := by
      simp [levelString, c1, hz]
    rw [hls]
    refine ⟨base_plusd_ne _ _, ?_, ?_, ?_⟩ <;>
      exact ne_of_head_ne _ _ (by rw [head_data_append "DEBUG" (plusd (l - LevelDebug)) 'D' (by decide)]; decide)
  · by_cases c2 : l < LevelWarn
    · have hz : ¬ l - LevelInfo = 0 := by
        simp only [LevelInfo]; omega
      have hls : levelString l = "INFO" ++ plusd (l - LevelInfo) := by
        simp [levelString, c1, c2, hz]
      rw [hls]
      refine ⟨?_, base_plusd_ne _ _, ?_, ?_⟩ <;>
        exact ne_of_head_ne _ _ (by rw [head_data_append "INFO" (plusd (l - LevelInfo)) 'I' (by decide)]; decide)
    · by_cases c3 : l < LevelError
      · have hz : ¬ l - LevelWarn = 0 := by
          simp only [LevelWarn]; omega
        have hls : levelString l = "WARN" ++ plusd (l - LevelWarn) := by
          simp [levelString, c1, c2, c3, hz]
        rw [hls]
        refine ⟨?_, ?_, base_plusd_ne _ _, ?_⟩ <;>
          exact ne_of_head_ne _ _ (by rw [head_data_append "WARN" (plusd (l - LevelWarn)) 'W' (by decide)]; decide)
      · have hz : ¬ l - LevelError = 0 := by
          simp only [LevelError]
          simp only [LevelInfo] at c1
          simp only [LevelWarn] at c2
          simp only [LevelError] at c3
          omega
        have hls : levelString l = "ERROR" ++ plusd (l - LevelError) := by
          simp [levelString, c1, c2, c3, hz]
        rw [hls]
        refine ⟨?_, ?_, ?_, base_plusd_ne _ _⟩ <;>
          exact ne_of_head_ne _ _ (by rw [head_data_append "ERROR" (plusd (l - LevelError)) 'E' (by decide)]; decide)

/-- Claim C10. A record whose level is at or above the minimum but is
not one of the four standard levels is still counted, at its level's
string representation, on both backends — even though construction
pre-registered no zero entry whose level label equals that string. -/
theorem nonstandard_level_counted (S : BaseSem) (id oid : Nat)
    (opts : MOptions) (pc : PCounter) (oc : OCounter) (r : Record)
    (hmin : opts.minLevel ≤ r.level)
    (hns : r.level ∉ predefinedLevels) :
    ((phandle S (.wrap (.base id) opts) pc r).1
        = pcounterAdd pc (pbuildLabels opts r) 1
      ∧ (pbuildLabels opts r).head? = some (levelString r.level)
      ∧ ∀ p ∈ pinitCounter [] opts, p.1.head? ≠ some (levelString r.level))
    ∧ ((ohandle S (.wrap (.base oid) opts) oc r).1
        = ocounterAdd oc (obuildAttrs opts r) 1
      ∧ (obuildAttrs opts r).head? = some ("level", levelString r.level)
      ∧ ∀ p ∈ oinitCounter [] opts,
          p.1.head? ≠ some ("level", levelString r.level)) := by
  have hlt : ¬ r.level < opts.minLevel := Int.not_lt.mpr hmin
  obtain ⟨nD, nI, nW, nE⟩ := levelString_nonstandard r.level hns
  refine ⟨⟨?_, ?_, ?_⟩, ⟨?_, ?_, ?_⟩⟩
  · simp [phandle, hlt]
  · by_cases h0 : opts.labelAttributes.length = 0 <;> simp [pbuildLabels, h0]
  · intro p hp
    rw [pinit_eq opts] at hp
    simp only [List.mem_map] at hp
    obtain ⟨l, hlmem, rfl⟩ := hp
    have hl : l = LevelDebug ∨ l = LevelInfo ∨ l = LevelWarn ∨ l = LevelError := by
      have hm := (List.mem_filter.mp hlmem).1
      simpa [predefinedLevels] using hm
    have hhead : (if opts.labelAttributes.length = 0 then [levelString l]
        else levelString l :: opts.labelAttributes.map fun _ => "").head?
        = some (levelString l) := by
      by_cases h0 : opts.labelAttributes.length = 0 <;> simp [h0]
    simp only [hhead, ne_eq, Option.some.injEq]
    intro heq
    rcases hl with h | h | h | h <;> rw [h] at heq
    · rw [lsDebug] at heq; exact nD heq.symm
    · rw [lsInfo] at heq; exact nI heq.symm
    · rw [lsWarn] at heq; exact nW heq.symm
    · rw [lsError] at heq; exact nE heq.symm
  · simp [ohandle, hlt]
  · by_cases h0 : opts.labelAttributes.length = 0 <;> simp [obuildAttrs, h0]
  · intro p hp
    rw [oinit_eq opts] at hp
    simp only [List.mem_map] at hp
    obtain ⟨l, hlmem, rfl⟩ := hp
    have hl : l = LevelDebug ∨ l = LevelInfo ∨ l = LevelWarn ∨ l = LevelError := by
      have hm := (List.mem_filter.mp hlmem).1
      simpa [predefinedLevels] using hm
    have hhead : (if opts.labelAttributes.length = 0 then [("level", levelString l)]
        else ("level", levelString l)
          :: opts.labelAttributes.map fun n => (n, "")).head?
        = some ("level", levelString l) := by
      by_cases h0 : opts.labelAttributes.length = 0 <;> simp [h0]
    simp only [hhead, ne_eq, Option.some.injEq, Prod.mk.injEq, true_and]
    intro heq
    rcases hl with h | h | h | h <;> rw [h] at heq
    · rw [lsDebug] at heq; exact nD heq.symm
    · rw [lsInfo] at heq; exact nI heq.symm
    · rw [lsWarn] at heq; exact nW heq.symm
    · rw [lsError] at heq; exact nE heq.symm

/-- Claim C10, witness: level 2 ("INFO+2") with the default options. -/
theorem nonstandard_level_counted_witness :
    ((phandle S0 (.wrap (.base 0) defaultMOptions) []
        { time := "t", level := 2, message := "m", attrs := [] }).1
        = pcounterAdd []
            (pbuildLabels defaultMOptions
              { time := "t", level := 2, message := "m", attrs := [] }) 1
      ∧ (pbuildLabels defaultMOptions
          { time := "t", level := 2, message := "m", attrs := [] }).head?
          = some (levelString 2)
      ∧ ∀ p ∈ pinitCounter [] defaultMOptions,
          p.1.head? ≠ some (levelString 2))
    ∧ ((ohandle S0 (.wrap (.base 0) defaultMOptions) []
        { time := "t", level := 2, message := "m", attrs := [] }).1
        = ocounterAdd []
            (obuildAttrs defaultMOptions
              { time := "t", level := 2, message := "m", attrs := [] }) 1
      ∧ (obuildAttrs defaultMOptions
          { time := "t", level := 2, message := "m", attrs := [] }).head?
          = some ("level", levelString 2)
      ∧ ∀ p ∈ oinitCounter [] defaultMOptions,
          p.1.head? ≠ some ("level", levelString 2)) :=
  nonstandard_level_counted S0 0 0 defaultMOptions [] []
    { time := "t", level := 2, message := "m", attrs := [] }
    (by decide) (by decide)

/-- Escape-freedom is preserved by append. -/
theorem noEsc_append {a b : String} (ha : noEsc a) (hb : noEsc b) :
    noEsc (a ++ b) := by
  intro c hc
  rw [String.data_append] at hc
  rcases List.mem_append.mp hc with h | h
  · exact ha c h
  · exact hb c h

/-- No digit character is the escape character. -/
theorem digitChar_ne_esc (m : Nat) : Nat.digitChar m ≠ '\x1b' := by
  rcases Nat.lt_or_ge m 16 with h | h
  · interval_cases m <;> decide
  · have h0 : m ≠ 0 := by omega
    have h1 : m ≠ 1 := by omega
    have h2 : m ≠ 2 := by omega
    have h3 : m ≠ 3 := by omega
    have h4 : m ≠ 4 := by omega
    have h5 : m ≠ 5 := by omega
    have h6 : m ≠ 6 := by omega
    have h7 : m ≠ 7 := by omega
    have h8 : m ≠ 8 := by omega
    have h9 : m ≠ 9 := by omega
    have h10 : m ≠ 10 := by omega
    have h11 : m ≠ 11 := by omega
    have h12 : m ≠ 12 := by omega
    have h13 : m ≠ 13 := by omega
    have h14 : m ≠ 14 := by omega
    have h15 : m ≠ 15 := by omega
    unfold Nat.digitChar
    simp only [h0, h1, h2, h3, h4, h5, h6, h7, h8, h9, h10, h11, h12, h13,
      h14, h15, if_false, if_neg, ne_eq]
    decide

/-- The digit-accumulating loop of Nat.repr never emits the escape
character. -/
theorem toDigitsCore_ne_esc :
    ∀ (fuel b m : Nat) (acc : List Char), (∀ c ∈ acc, c ≠ '\x1b') →
      ∀ c ∈ Nat.toDigitsCore b fuel m acc, c ≠ '\x1b' := by
  intro fuel
  induction fuel with
  | zero => intro b m acc hacc c hc; exact hacc c hc
  | succ f ih =>
    intro b m acc hacc c hc
    rw [show Nat.toDigitsCore b (f + 1) m acc
        = if m / b = 0 then Nat.digitChar (m % b) :: acc
          else Nat.toDigitsCore b f (m / b) (Nat.digitChar (m % b) :: acc)
        from rfl] at hc
    by_cases hz : m / b = 0
    · rw [if_pos hz] at hc
      rcases List.mem_cons.mp hc with h | h
      · rw [h]; exact digitChar_ne_esc _
      · exact hacc c h
    · rw [if_neg hz] at hc
      refine ih b (m / b) (Nat.digitChar (m % b) :: acc) ?_ c hc
      intro d hd
      rcases List.mem_cons.mp hd with h | h
      · rw [h]; exact digitChar_ne_esc _
      · exact hacc d h

/-- A decimal rendering never contains the escape character. -/
theorem noEsc_natRepr (n : Nat) : noEsc (Nat.repr n) := by
  intro c hc
  rw [show (Nat.repr n).data = Nat.toDigitsCore 10 (n + 1) n [] from rfl] at hc
  exact toDigitsCore_ne_esc (n + 1) 10 n [] (by intro d hd; cases hd) c hc

/-- A signed-decimal rendering never contains the escape character. -/
theorem noEsc_plusd (v : Int) : noEsc (plusd v) := by
  cases v with
  | ofNat m =>
    have h : 0 ≤ Int.ofNat m := Int.ofNat_nonneg m
    simp only [plusd, if_pos h]
    exact noEsc_append (by decide) (noEsc_natRepr m)
  | negSucc m =>
    have h : ¬ 0 ≤ Int.negSucc m := by
      intro hc
      exact absurd hc (Int.not_le.mpr (Int.negSucc_lt_zero m))
    simp only [plusd, if_neg h]
    show noEsc (Int.repr (Int.negSucc m))
    rw [show Int.repr (Int.negSucc m) = "-" ++ Nat.repr (m + 1) from rfl]
    exact noEsc_append (by decide) (noEsc_natRepr (m + 1))

/-- No level string contains the escape character. -/
theorem noEsc_levelString (l : Int) : noEsc (levelString l) := by
  unfold levelString
  split_ifs <;>
    first
      | decide
      | exact noEsc_append (by decide) (noEsc_plusd _)

/-- Rendered attributes of escape-free attributes are escape-free. -/
theorem noEsc_renderAttrs (attrs : List Attr)
    (h : ∀ a ∈ attrs, noEsc a.1 ∧ noEsc a.2) : noEsc (renderAttrs attrs) := by
  induction attrs with
  | nil => decide
  | cons a t ih =>
    have ha := h a (List.mem_cons_self a t)
    refine noEsc_append ?_ (ih fun b hb => h b (List.mem_cons_of_mem a hb))
    unfold renderAttr
    split_ifs
    · exact noEsc_append (noEsc_append (by decide) ha.2) (by decide)
    · exact noEsc_append
        (noEsc_append
          (noEsc_append (noEsc_append (by decide) ha.1) (by decide)) ha.2)
        (by decide)

/-- The built line of an escape-free record and prefix is escape-free. -/
theorem noEsc_buildLine (h : LogHandler) (r : Record)
    (ht : noEsc r.time) (hm : noEsc r.message)
    (ha : ∀ a ∈ r.attrs, noEsc a.1 ∧ noEsc a.2)
    (hp : noEsc h.preformatted) : noEsc (buildLine h r) := by
  unfold buildLine
  exact noEsc_append
    (noEsc_append
      (noEsc_append
        (noEsc_append
          (noEsc_append
            (noEsc_append
              (noEsc_append
                (noEsc_append ht (by decide))
                (noEsc_levelString r.level))
              (by decide))
            hp)
          (noEsc_renderAttrs r.attrs ha))
        (by decide))
      hm)
    (by decide)

/-- A character list without the escape character has no `ESC [`. -/
theorem containsEscSeq_eq_false (l : List Char) (h : ∀ c ∈ l, c ≠ '\x1b') :
    containsEscSeq l = false := by
  induction l with
  | nil => rfl
  | cons a t ih =>
    cases t with
    | nil => rfl
    | cons b u =>
      have ha : a ≠ '\x1b' := h a (List.mem_cons_self a _)
      simp only [containsEscSeq]
      rw [ih fun c hc => h c (List.mem_cons_of_mem a hc)]
      simp [ha]

/-- Every colored write starts with `ESC [`. -/
theorem containsEscSeq_colorWrap (c : Nat) (s : String) :
    containsEscSeq (colorWrap c s).data = true := by
  have hd : (colorWrap c s).data
      = '\x1b' :: '[' :: (toString c ++ "m" ++ s ++ "\x1b[0m").data := by
    simp [colorWrap, String.data_append]
  rw [hd]
  simp [containsEscSeq]

/-- Claim C7, counterexample. Under the default colors, a DEBUG record
handled with color enabled IS wrapped in an ANSI escape sequence
(DebugColor defaults to hi-black, 90), contradicting the claim that
debug lines carry no escape prefix. -/
theorem color_debug_colored_cex :
    ({ opts := { level := -4, color := true }, preformatted := "",
        muId := 0, wId := 0 } : LogHandler).opts.color = true
    ∧ ({ time := "t", level := -4, message := "m", attrs := [] } : Record).level
        = LevelDebug
    ∧ containsEscSeq
        ((LogHandler.Handle
          { opts := { level := -4, color := true }, preformatted := "",
            muId := 0, wId := 0 }
          (fun _ => none)
          { time := "t", level := -4, message := "m", attrs := [] }).written.data)
        = true := by
  exact ⟨rfl, rfl, by decide⟩

/-- Claim C7, amended. For records and prefixes free of the escape
character, under the default colors: with color disabled the written
line never contains the ANSI escape prefix; with color enabled it does
contain it for warn, error, and also debug (DebugColor defaults to
hi-black); with color enabled it does not for info (InfoColor defaults
to the no-color sentinel 0). -/
theorem color_escape_amended (h : LogHandler) (sink : String → Option GoErr)
    (r : Record) (ht : noEsc r.time) (hm : noEsc r.message)
    (ha : ∀ a ∈ r.attrs, noEsc a.1 ∧ noEsc a.2)
    (hp : noEsc h.preformatted) :
    (h.opts.color = false →
      containsEscSeq (h.Handle sink r).written.data = false)
    ∧ (h.opts.color = true →
        (r.level = LevelWarn ∨ r.level = LevelError ∨ r.level = LevelDebug) →
        containsEscSeq (h.Handle sink r).written.data = true)
    ∧ (h.opts.color = true → r.level = LevelInfo →
        containsEscSeq (h.Handle sink r).written.data = false) := by
  have hline := noEsc_buildLine h r ht hm ha hp
  refine ⟨?_, ?_, ?_⟩
  · intro hc
    simp only [LogHandler.Handle, hc, Bool.false_eq_true, if_false]
    exact containsEscSeq_eq_false _ hline
  · intro hc hl
    rcases hl with hl | hl | hl <;>
      · simp only [LogHandler.Handle, LogHandler.FprintFunc, hc, if_true, hl,
          LevelWarn, LevelError, LevelDebug, LevelInfo]
        norm_num
        exact containsEscSeq_colorWrap _ _
  · intro hc hl
    simp only [LogHandler.Handle, LogHandler.FprintFunc, hc, if_true, hl,
      LevelWarn, LevelError, LevelDebug, LevelInfo, InfoColor]
    norm_num
    exact containsEscSeq_eq_false _ hline

/-- Claim C7 amended, witness at concrete inputs. -/
theorem color_escape_amended_witness :
    containsEscSeq
        ((LogHandler.Handle
          { opts := { level := 0, color := false }, preformatted := "",
            muId := 0, wId := 0 }
          (fun _ => none)
          { time := "t", level := 4, message := "m", attrs := [("k", "v")] }).written.data)
        = false
    ∧ containsEscSeq
        ((LogHandler.Handle
          { opts := { level := 0, color := true }, preformatted := "",
            muId := 0, wId := 0 }
          (fun _ => none)
          { time := "t", level := 4, message := "m", attrs := [("k", "v")] }).written.data)
        = true
    ∧ containsEscSeq
        ((LogHandler.Handle
          { opts := { level := 0, color := true }, preformatted := "",
            muId := 0, wId := 0 }
          (fun _ => none)
          { time := "t", level := 0, message := "m", attrs := [("k", "v")] }).written.data)
        = false :=
  ⟨(color_escape_amended
      { opts := { level := 0, color := false }, preformatted := "", muId := 0, wId := 0 }
      (fun _ => none)
      { time := "t", level := 4, message := "m", attrs := [("k", "v")] }
      (by decide) (by decide) (by decide) (by decide)).1 rfl,
   (color_escape_amended
      { opts := { level := 0, color := true }, preformatted := "", muId := 0, wId := 0 }
      (fun _ => none)
      { time := "t", level := 4, message := "m", attrs := [("k", "v")] }
      (by decide) (by decide) (by decide) (by decide)).2.1 rfl (Or.inl rfl),
   (color_escape_amended
      { opts := { level := 0, color := true }, preformatted := "", muId := 0, wId := 0 }
      (fun _ => none)
      { time := "t", level := 0, message := "m", attrs := [("k", "v")] }
      (by decide) (by decide) (by decide) (by decide)).2.2 rfl rfl⟩

/-- joinSep of a cons with nonempty tail. -/
theorem joinSep_cons (sep : Char) (g : List Char) (gs : List (List Char))
    (h : gs ≠ []) : joinSep sep (g :: gs) = g ++ sep :: joinSep sep gs := by
  cases gs with
  | nil => exact absurd rfl h
  | cons a t => rfl

/-- joinSep of an appended last element. -/
theorem joinSep_concat (sep : Char) (gs : List (List Char)) (f : List Char)
    (h : gs ≠ []) : joinSep sep (gs ++ [f]) = joinSep sep gs ++ sep :: f := by
  induction gs with
  | nil => exact absurd rfl h
  | cons a t ih =>
    cases t with
    | nil => rfl
    | cons b u =>
      rw [List.cons_append,
        joinSep_cons sep a ((b :: u) ++ [f]) (by simp),
        joinSep_cons sep a (b :: u) (by simp), ih (by simp)]
      simp

/-- splitSep never yields the empty list of groups. -/
theorem splitSep_ne_nil (sep : Char) (l : List Char) : splitSep sep l ≠ [] := by
  induction l with
  | nil => simp [splitSep]
  | cons c cs ih =>
    simp only [splitSep]
    by_cases hc : c = sep
    · simp [hc]
    · simp only [if_neg hc]
      cases h : splitSep sep cs with
      | nil => exact absurd h ih
      | cons g gs => simp

/-- A separator-free list splits into exactly itself. -/
theorem splitSep_no_sep (sep : Char) (g : List Char) (h : sep ∉ g) :
    splitSep sep g = [g] := by
  induction g with
  | nil => rfl
  | cons c cs ih =>
    have hc : ¬ c = sep := fun he => h (he ▸ List.mem_cons_self c cs)
    simp only [splitSep, if_neg hc,
      ih fun hm => h (List.mem_cons_of_mem c hm)]

/-- Splitting a separator-free group followed by a separator peels off
exactly that group. -/
theorem splitSep_append_cons (sep : Char) (g rest : List Char) (h : sep ∉ g) :
    splitSep sep (g ++ sep :: rest) = g :: splitSep sep rest := by
  induction g with
  | nil => simp [splitSep]
  | cons c cs ih =>
    have hc : ¬ c = sep := fun he => h (he ▸ List.mem_cons_self c cs)
    have hcs : sep ∉ cs := fun hm => h (List.mem_cons_of_mem c hm)
    simp only [List.cons_append, splitSep, if_neg hc, List.append_eq, ih hcs]

/-- splitSep is a retraction of joinSep on separator-free groups. -/
theorem splitSep_join (sep : Char) (gss : List (List Char)) (hne : gss ≠ [])
    (h : ∀ g ∈ gss, sep ∉ g) : splitSep sep (joinSep sep gss) = gss := by
  induction gss with
  | nil => exact absurd rfl hne
  | cons g gs ih =>
    cases gs with
    | nil =>
      exact splitSep_no_sep sep g (h g (List.mem_cons_self g []))
    | cons b u =>
      rw [joinSep_cons sep g (b :: u) (by simp),
        splitSep_append_cons sep g _ (h g (List.mem_cons_self g (b :: u))),
        ih (by simp) fun x hx => h x (List.mem_cons_of_mem g hx)]

/-- A trailing separator contributes one trailing empty group. -/
theorem splitSep_append_sep (sep : Char) (l : List Char) :
    splitSep sep (l ++ [sep]) = splitSep sep l ++ [[]] := by
  induction l with
  | nil => simp [splitSep]
  | cons c cs ih =>
    by_cases hc : c = sep
    · simp only [List.cons_append, splitSep, if_pos hc, List.append_eq, ih]
    · simp only [List.cons_append, splitSep, if_neg hc, List.append_eq, ih]
      cases h : splitSep sep cs with
      | nil => exact absurd h (splitSep_ne_nil sep cs)
      | cons g gs => simp

/-- Without "." or ".." elements the clean stack keeps exactly the
non-empty groups, in order, after the already accumulated output. -/
theorem cleanStack_no_dots (rooted : Bool) (es : List (List Char))
    (h : ∀ g ∈ es, g ≠ ['.'] ∧ g ≠ ['.', '.']) :
    ∀ out, cleanStack rooted es out
      = out.reverse ++ es.filter (fun g => g ≠ []) := by
  induction es with
  | nil => intro out; simp [cleanStack]
  | cons e es ih =>
    intro out
    have he := h e (List.mem_cons_self e es)
    have hes := fun g hg => h g (List.mem_cons_of_mem e hg)
    by_cases hz : e = []
    · subst hz
      simp only [cleanStack, if_pos (Or.inl rfl)]
      rw [ih hes out]
      simp
    · have hcond : ¬ (e = [] ∨ e = ['.']) := by
        intro hor
        rcases hor with h1 | h1
        · exact hz h1
        · exact he.1 h1
      simp only [cleanStack, if_neg hcond, if_neg he.2]
      rw [ih hes (e :: out)]
      simp [hz]

/-- Cleaning a canonical rooted path with a trailing separator drops
exactly that separator. -/
theorem clean_rooted_trailing (gss : List (List Char))
    (h : ∀ g ∈ gss, Seg g) :
    cleanChars (absChars gss ++ ['/']) = absChars gss := by
  cases gss with
  | nil => decide
  | cons g gs =>
    have hjoin : splitSep '/' (joinSep '/' (g :: gs)) = g :: gs :=
      splitSep_join '/' (g :: gs) (by simp) fun x hx => (h x hx).2.2.2
    have hsplit : splitSep '/' (joinSep '/' (g :: gs) ++ ['/'])
        = (g :: gs) ++ [[]] := by rw [splitSep_append_sep, hjoin]
    have hdots : ∀ x ∈ ([] :: g :: (gs ++ [[]]) : List (List Char)),
        x ≠ ['.'] ∧ x ≠ ['.', '.'] := by
      intro x hx
      rcases List.mem_cons.mp hx with hx | hx
      · subst hx; exact ⟨by simp, by simp⟩
      rcases List.mem_cons.mp hx with hx | hx
      · rw [hx]
        exact ⟨(h g (List.mem_cons_self g gs)).2.1,
          (h g (List.mem_cons_self g gs)).2.2.1⟩
      rcases List.mem_append.mp hx with hx | hx
      · have hs := h x (List.mem_cons_of_mem g hx)
        exact ⟨hs.2.1, hs.2.2.1⟩
      · simp only [List.mem_singleton] at hx
        subst hx; exact ⟨by simp, by simp⟩
    have hfilter : ((([] :: g :: (gs ++ [[]])) : List (List Char)).filter
        (fun x => x ≠ [])) = g :: gs := by
      have hg0 : (decide (g ≠ ([] : List Char))) = true := by
        simpa using (h g (List.mem_cons_self g gs)).1
      rw [List.filter_cons, List.filter_cons, List.filter_append]
      simp [hg0]
      exact fun a ha => (h a (List.mem_cons_of_mem g ha)).1
    show cleanChars ('/' :: joinSep '/' (g :: gs) ++ ['/'])
        = '/' :: joinSep '/' (g :: gs)
    simp only [cleanChars, List.cons_append, splitSep, List.append_eq,
      eq_self_iff_true, if_true, List.head?_cons, Option.some.injEq,
      decide_True, hsplit]
    rw [if_neg (by simp)]
    rw [cleanStack_no_dots true ([] :: g :: (gs ++ [[]])) hdots []]
    rw [List.reverse_nil, List.nil_append, hfilter]

/-- The head of a joined nonempty-first-group list is the head of the
first group. -/
theorem head_joinSep (g : List Char) (gs : List (List Char)) (hg : g ≠ []) :
    (joinSep '/' (g :: gs)).head? = g.head? := by
  cases gs with
  | nil => rfl
  | cons b u =>
    rw [joinSep_cons '/' g (b :: u) (by simp)]
    cases g with
    | nil => exact absurd rfl hg
    | cons c g2 => rfl

/-- A canonical relative join is a fixed point of Clean. -/
theorem clean_join (gss : List (List Char)) (hne : gss ≠ [])
    (h : ∀ g ∈ gss, Seg g) :
    cleanChars (joinSep '/' gss) = joinSep '/' gss := by
  cases gss with
  | nil => exact absurd rfl hne
  | cons g gs =>
    obtain ⟨hg0, hgd, hgdd, hgsl⟩ := h g (List.mem_cons_self g gs)
    have hhead : (joinSep '/' (g :: gs)).head? = g.head? := head_joinSep g gs hg0
    have hlne : joinSep '/' (g :: gs) ≠ [] := by
      intro hl
      rw [hl] at hhead
      cases g with
      | nil => exact hg0 rfl
      | cons c g2 => simp at hhead
    have hrooted : ¬ ((joinSep '/' (g :: gs)).head? = some '/') := by
      rw [hhead]
      cases g with
      | nil => exact absurd rfl hg0
      | cons c g2 =>
        simp only [List.head?_cons, Option.some.injEq]
        intro hc
        exact hgsl (hc ▸ List.mem_cons_self c g2)
    have hr : (decide ((joinSep '/' (g :: gs)).head? = some '/')) = false :=
      decide_eq_false hrooted
    have hsplit : splitSep '/' (joinSep '/' (g :: gs)) = g :: gs :=
      splitSep_join '/' (g :: gs) (by simp) fun x hx => (h x hx).2.2.2
    have hdots : ∀ x ∈ g :: gs, x ≠ ['.'] ∧ x ≠ ['.', '.'] :=
      fun x hx => ⟨(h x hx).2.1, (h x hx).2.2.1⟩
    have hfilter : ((g :: gs).filter (fun x => x ≠ [])) = g :: gs := by
      rw [List.filter_cons]
      simp [hg0]
      exact fun a ha => (h a (List.mem_cons_of_mem g ha)).1
    simp only [cleanChars, hsplit, hr]
    rw [if_neg hlne]
    rw [cleanStack_no_dots false (g :: gs) hdots []]
    rw [List.reverse_nil, List.nil_append, hfilter]
    simp [hg0]
    exact hrooted

/-- takeWhile stops exactly at the first failing element. -/
theorem takeWhile_append_stop (p : Char → Bool) (a : List Char) (c : Char)
    (b : List Char) (ha : ∀ x ∈ a, p x = true) (hc : p c = false) :
    (a ++ c :: b).takeWhile p = a := by
  induction a with
  | nil => simp [List.takeWhile_cons, hc]
  | cons x xs ih =>
    rw [List.cons_append, List.takeWhile_cons,
      ha x (List.mem_cons_self x xs),
      ih fun y hy => ha y (List.mem_cons_of_mem x hy)]
    simp

/-- dropWhile drops exactly up to the first failing element. -/
theorem dropWhile_append_stop (p : Char → Bool) (a : List Char) (c : Char)
    (b : List Char) (ha : ∀ x ∈ a, p x = true) (hc : p c = false) :
    (a ++ c :: b).dropWhile p = c :: b := by
  induction a with
  | nil => simp [List.dropWhile_cons, hc]
  | cons x xs ih =>
    rw [List.cons_append, List.dropWhile_cons,
      ha x (List.mem_cons_self x xs),
      ih fun y hy => ha y (List.mem_cons_of_mem x hy)]
    simp

/-- Base of a path whose final component is separator-free: exactly that
component. -/
theorem baseChars_concat (l0 f : List Char) (hf : f ≠ []) (hfs : '/' ∉ f) :
    baseChars (l0 ++ '/' :: f) = f := by
  have hne : l0 ++ '/' :: f ≠ [] := by simp
  have hrev : (l0 ++ '/' :: f).reverse = f.reverse ++ '/' :: l0.reverse := by
    simp
  have hfr : ∀ x ∈ f.reverse, (decide (x = '/')) = false := by
    intro x hx
    have : x ∈ f := List.mem_reverse.mp hx
    simp only [decide_eq_false_iff_not]
    intro he
    exact hfs (he ▸ this)
  have hfr2 : ∀ x ∈ f.reverse, (decide (x ≠ '/')) = true := by
    intro x hx
    have : x ∈ f := List.mem_reverse.mp hx
    simp only [decide_eq_true_eq]
    intro he
    exact hfs (he ▸ this)
  have hdrop : (f.reverse ++ '/' :: l0.reverse).dropWhile (· = '/')
      = f.reverse ++ '/' :: l0.reverse := by
    cases hf2 : f.reverse with
    | nil =>
      exact absurd (by simpa using congrArg List.reverse hf2) hf
    | cons x xs =>
      rw [List.cons_append, List.dropWhile_cons]
      have hx : (decide (x = '/')) = false :=
        hfr x (by rw [hf2]; exact List.mem_cons_self x xs)
      simp [hx]
  have htake : (f.reverse ++ '/' :: l0.reverse).takeWhile (· ≠ '/')
      = f.reverse :=
    takeWhile_append_stop _ _ _ _ hfr2 (by simp)
  unfold baseChars
  rw [if_neg hne, hrev, hdrop]
  rw [if_neg (by simp)]
  rw [htake, List.reverse_reverse]

/-- Dir of a path whose final component is separator-free: the Cleaned
prefix up to and including the last separator. -/
theorem dirChars_concat (l0 f : List Char) (_hf : f ≠ []) (hfs : '/' ∉ f) :
    dirChars (l0 ++ '/' :: f) = cleanChars (l0 ++ ['/']) := by
  have hrev : (l0 ++ '/' :: f).reverse = f.reverse ++ '/' :: l0.reverse := by
    simp
  have hfr : ∀ x ∈ f.reverse, (decide (x ≠ '/')) = true := by
    intro x hx
    have : x ∈ f := List.mem_reverse.mp hx
    simp only [decide_eq_true_eq]
    intro he
    exact hfs (he ▸ this)
  unfold dirChars
  rw [hrev, dropWhile_append_stop _ _ _ _ hfr (by simp)]
  simp

/-- The characters of an absolute path decomposed at its last segment. -/
theorem abs_concat (gss : List (List Char)) (f : List Char) :
    absChars (gss ++ [f])
      = (if gss = [] then [] else absChars gss) ++ '/' :: f := by
  cases gss with
  | nil => rfl
  | cons g gs =>
    rw [if_neg (by simp)]
    show '/' :: joinSep '/' ((g :: gs) ++ [f])
        = ('/' :: joinSep '/' (g :: gs)) ++ '/' :: f
    rw [joinSep_concat '/' (g :: gs) f (by simp)]
    simp

/-- Base of a canonical absolute path is its last segment. -/
theorem base_abs (gss : List (List Char)) (f : List Char) (hf : Seg f) :
    baseChars (absChars (gss ++ [f])) = f := by
  rw [abs_concat]
  exact baseChars_concat _ f hf.1 hf.2.2.2

/-- Dir of a canonical absolute path drops its last segment. -/
theorem dir_abs (gss : List (List Char)) (f : List Char) (hf : Seg f)
    (h : ∀ g ∈ gss, Seg g) :
    dirChars (absChars (gss ++ [f])) = absChars gss := by
  rw [abs_concat]
  rw [dirChars_concat _ f hf.1 hf.2.2.2]
  cases hg : gss with
  | nil => decide
  | cons g gs =>
    rw [if_neg (by simp)]
    exact clean_rooted_trailing (g :: gs) (hg ▸ h)

/-- The last segment's length bounds the joined length from below. -/
theorem le_len_joinSep_concat (gs : List (List Char)) (g : List Char) :
    g.length ≤ (joinSep '/' (gs ++ [g])).length := by
  cases gs with
  | nil => simp [joinSep]
  | cons a t =>
    rw [joinSep_concat '/' (a :: t) g (by simp)]
    simp
    omega

/-- Appending a nonempty segment strictly lengthens an absolute path. -/
theorem abs_len_lt (gs : List (List Char)) (g : List Char) (hg : g ≠ []) :
    (absChars gs).length < (absChars (gs ++ [g])).length := by
  have hg1 : 1 ≤ g.length := by
    cases g with
    | nil => exact absurd rfl hg
    | cons c t => simp
  cases gs with
  | nil =>
    have hle := le_len_joinSep_concat [] g
    simp only [absChars, List.length_cons, List.nil_append] at hle ⊢
    simp only [joinSep, List.length_nil]
    omega
  | cons a t =>
    rw [show ((a :: t) ++ [g]) = a :: (t ++ [g]) from rfl]
    simp only [absChars, List.length_cons]
    rw [show (a :: (t ++ [g])) = (a :: t) ++ [g] from rfl,
      joinSep_concat '/' (a :: t) g (by simp)]
    simp

/-- The upward walk over a canonical absolute path collects exactly the
last `d` segments (all of them when `d` exceeds their number). -/
theorem gfpLoop_abs :
    ∀ (d : Nat) (gss : List (List Char)), (∀ g ∈ gss, Seg g) →
      ∀ acc, gfpLoop d (absChars gss) acc
        = gss.drop (gss.length - d) ++ acc := by
  intro d
  induction d with
  | zero =>
    intro gss h acc
    simp [gfpLoop, List.drop_length]
  | succ n ih =>
    intro gss h acc
    rcases List.eq_nil_or_concat gss with hg | ⟨gs', g, hg⟩
    · subst hg
      have : gfpLoop (n + 1) (absChars []) acc = acc := by
        simp [gfpLoop, absChars, joinSep]
      rw [this]
      simp
    · rw [List.concat_eq_append] at hg
      subst hg
      have hseg : Seg g := h g (by simp)
      have hgs' : ∀ x ∈ gs', Seg x := fun x hx => h x (by simp [hx])
      have hlt : (absChars gs').length < (absChars (gs' ++ [g])).length :=
        abs_len_lt gs' g hseg.1
      have c1 : absChars (gs' ++ [g]) ≠ ['.'] := by
        simp [absChars]
      have c3 : absChars (gs' ++ [g]) ≠ [] := by
        simp [absChars]
      have c2 : absChars (gs' ++ [g]) ≠ ['/'] := by
        intro he
        have h1 : 1 ≤ g.length := by
          cases hgc : g with
          | nil => exact absurd hgc hseg.1
          | cons c t => simp
        have h2 := le_len_joinSep_concat gs' g
        have hlen := congrArg List.length he
        simp only [absChars, List.length_cons, List.length_singleton,
          List.length_nil] at hlen
        omega
      have c4 : dirChars (absChars (gs' ++ [g])) ≠ absChars (gs' ++ [g]) := by
        rw [dir_abs gs' g hseg hgs']
        intro he
        rw [he] at hlt
        exact lt_irrefl _ hlt
      have hstep : gfpLoop (n + 1) (absChars (gs' ++ [g])) acc
          = gfpLoop n (dirChars (absChars (gs' ++ [g])))
              (baseChars (absChars (gs' ++ [g])) :: acc) := by
        simp only [gfpLoop]
        rw [if_pos ⟨c1, c2, c3, c4⟩]
      rw [hstep, dir_abs gs' g hseg hgs', base_abs gs' g hseg,
        ih gs' hgs' (g :: acc)]
      rw [List.drop_append_eq_append_drop]
      have harith : gs'.length + 1 - (n + 1) = gs'.length - n := by omega
      have harith2 : gs'.length - n - gs'.length = 0 := by omega
      simp [harith, harith2]

/-- Mapping through String.mk and back is the identity. -/
theorem map_mk_data (ps : List (List Char)) :
    ((ps.map (fun g => (⟨g⟩ : String))).map String.data) = ps := by
  induction ps with
  | nil => rfl
  | cons a t ih =>
    simp only [List.map_cons, ih]

/-- fpJoin of canonical nonempty segments: joinSep, with Clean a no-op. -/
theorem fpJoin_all_segs (ps : List (List Char)) (hps : ∀ g ∈ ps, Seg g)
    (hne : ps ≠ []) :
    fpJoin (ps.map (fun g => (⟨g⟩ : String))) = ⟨joinSep '/' ps⟩ := by
  cases ps with
  | nil => exact absurd rfl hne
  | cons a t =>
    have ha : (decide (a = ([] : List Char))) = false := by
      simpa using (hps a (List.mem_cons_self a t)).1
    unfold fpJoin
    rw [map_mk_data, List.dropWhile_cons]
    simp only [ha, Bool.false_eq_true, if_false]
    rw [clean_join (a :: t) (by simp) hps]

/-- getFilePath with non-positive depth yields the base name. -/
theorem getFilePathPure_nonpos (p : String) (d : Int) (hd : d ≤ 0) :
    getFilePathPure p d = fpBase p := by
  by_cases h : d < 0
  · simp [getFilePathPure, if_pos h]
  · have hz : d = 0 := by omega
    subst hz
    simp [getFilePathPure]

/-- getFilePath on a canonical absolute path with positive depth yields
the last `depth` directory segments joined with the filename, all of
them when the walk reaches the root first. -/
theorem getFilePathPure_abs (segs : List String) (file : String) (d : Int)
    (hsegs : ∀ s ∈ segs, SegStr s) (hfile : SegStr file) (hd : 0 < d) :
    getFilePathPure (absPath (segs ++ [file])) d
      = joinSlashStr (segs.drop (segs.length - d.toNat) ++ [file]) := by
  have hd0 : ¬ d < 0 := by omega
  have hdne : ¬ d = 0 := by omega
  have hgss : ∀ g ∈ segs.map String.data, Seg g := by
    intro g hg
    obtain ⟨s, hs, rfl⟩ := List.mem_map.mp hg
    exact hsegs s hs
  have hdata : (absPath (segs ++ [file])).data
      = absChars (segs.map String.data ++ [file.data]) := by
    simp [absPath, List.map_append]
  have hdir : dirChars (absPath (segs ++ [file])).data
      = absChars (segs.map String.data) := by
    rw [hdata]; exact dir_abs _ _ hfile hgss
  have hbase : baseChars (absPath (segs ++ [file])).data = file.data := by
    rw [hdata]; exact base_abs _ _ hfile
  have hloop := gfpLoop_abs d.toNat (segs.map String.data) hgss [file.data]
  have hpartseg : ∀ g ∈ ((segs.map String.data).drop
      ((segs.map String.data).length - d.toNat) ++ [file.data]), Seg g := by
    intro g hg
    rcases List.mem_append.mp hg with hg | hg
    · exact hgss g (List.mem_of_mem_drop hg)
    · simp only [List.mem_singleton] at hg
      subst hg
      exact hfile
  simp only [getFilePathPure, if_neg hd0, if_neg hdne]
  rw [hdir, hbase, hloop]
  rw [fpJoin_all_segs _ hpartseg (by simp)]
  unfold joinSlashStr
  congr 1
  simp [List.map_append, List.map_drop, List.length_map]

/-- A repeated getFilePath call with identical arguments returns the
same result and leaves the cache unchanged. -/
theorem getFilePath_stable (c : SourceCache) (p : String) (d : Int) :
    getFilePath ((getFilePath c p d).2) p d = getFilePath c p d := by
  unfold getFilePath
  cases hl : cacheLoad c { path := p, depth := d } with
  | some v => simp [hl]
  | none =>
    simp only [hl]
    have hload : cacheLoad
        (({ path := p, depth := d }, getFilePathPure p d) :: c)
        { path := p, depth := d } = some (getFilePathPure p d) := by
      unfold cacheLoad
      rw [List.find?_cons]
      simp
    simp [hload]

/-- On a fresh cache getFilePath returns the pure value. -/
theorem getFilePath_fresh (p : String) (d : Int) :
    (getFilePath [] p d).1 = getFilePathPure p d := by
  unfold getFilePath cacheLoad
  simp

/-- Claim C8. The path formatter is a pure function of (path, depth):
depth at most 0 yields the final path component; positive depth yields
the last `depth` directory segments joined with the filename, stopping
early at the filesystem root; the claim's two concrete examples hold;
and a repeated call with identical arguments returns the cached value,
which on a fresh cache equals the pure value. -/
theorem getFilePath_spec :
    (∀ (p : String) (d : Int), d ≤ 0 → getFilePathPure p d = fpBase p)
    ∧ getFilePathPure "/a/b/c/file.go" 0 = "file.go"
    ∧ getFilePathPure "/a/b/c/file.go" 2 = "b/c/file.go"
    ∧ (∀ (segs : List String) (file : String) (d : Int),
        (∀ s ∈ segs, SegStr s) → SegStr file → 0 < d →
        getFilePathPure (absPath (segs ++ [file])) d
          = joinSlashStr (segs.drop (segs.length - d.toNat) ++ [file]))
    ∧ (∀ (c : SourceCache) (p : String) (d : Int),
        getFilePath ((getFilePath c p d).2) p d = getFilePath c p d)
    ∧ (∀ (p : String) (d : Int), (getFilePath [] p d).1 = getFilePathPure p d) :=
  ⟨getFilePathPure_nonpos, by decide, by decide, getFilePathPure_abs,
   getFilePath_stable, getFilePath_fresh⟩

/-- Claim C8, witness at concrete inputs. -/
theorem getFilePath_spec_witness :
    getFilePathPure "/x/y.go" (-1) = fpBase "/x/y.go"
    ∧ getFilePathPure (absPath (["a", "b"] ++ ["f.go"])) 1
        = joinSlashStr
            ((["a", "b"] : List String).drop
              ((["a", "b"] : List String).length - (1 : Int).toNat) ++ ["f.go"])
    ∧ getFilePath ((getFilePath [] "/x/y.go" 2).2) "/x/y.go" 2
        = getFilePath [] "/x/y.go" 2
    ∧ (getFilePath [] "/x/y.go" 2).1 = getFilePathPure "/x/y.go" 2 :=
  ⟨getFilePath_spec.1 "/x/y.go" (-1) (by decide),
   getFilePath_spec.2.2.2.1 ["a", "b"] "f.go" 1 (by decide) (by decide)
     (by decide),
   getFilePath_spec.2.2.2.2.1 [] "/x/y.go" 2,
   getFilePath_spec.2.2.2.2.2 "/x/y.go" 2⟩
